import Mathlib

/-!
Verification of the `hsl-rs` color conversion library.

The library converts pixel colors between RGB (three `u8` channels) and HSL
(hue in degrees, saturation and lightness as fractions).  The Rust source
(`src/lib.rs`) works in `f64`; we embed it shallowly over `ℚ`, modelling the
`f64` arithmetic as exact rational arithmetic.  `f64::round` (round half away
from zero) and the saturating `as u8` cast are modelled explicitly.
-/

namespace HslRs

/-- Color represented in HSL, mirroring `pub struct HSL { h, s, l : f64 }`. -/
structure HSL where
  /-- Hue in 0-360 degree -/
  h : ℚ
  /-- Saturation in 0...1 (percent) -/
  s : ℚ
  /-- Luminosity in 0...1 (percent) -/
  l : ℚ
deriving DecidableEq, Repr

/-- `f64::round`: round to nearest integer, ties away from zero. -/
def fround (x : ℚ) : ℤ :=
  if x < 0 then -⌊-x + 1/2⌋ else ⌊x + 1/2⌋

/-- `fn percent_to_byte(percent: f64) -> u8 { (percent * 255.0).round() as u8 }`.
The `as u8` cast saturates: values below 0 map to 0, values above 255 to 255. -/
def percent_to_byte (percent : ℚ) : ℕ :=
  min (fround (percent * 255)).toNat 255

/-- The single-step wraparound used both by `hue_to_rgb` ("Normalize") and by
`from_rgb` ("Fix wraparounds"): add 1 if negative, subtract 1 if above 1. -/
def wrap (t : ℚ) : ℚ :=
  if t < 0 then t + 1 else if t > 1 then t - 1 else t

/-- The sector part of `hue_to_rgb`, after the wraparound normalisation of `t`. -/
def hue_to_rgb_core (p q t : ℚ) : ℚ :=
  if t < 1/6 then p + (q - p) * 6 * t
  else if t < 1/2 then q
  else if t < 2/3 then p + (q - p) * (2/3 - t) * 6
  else p

/-- `fn hue_to_rgb(p: f64, q: f64, t: f64) -> f64`: single-step wraparound of
`t` into `[0,1]`, then piecewise linear interpolation over four sectors. -/
def hue_to_rgb (p q t : ℚ) : ℚ :=
  hue_to_rgb_core p q (wrap t)

/-- The hue fraction computed by `HSL::from_rgb` in the chromatic branch:
the `r2/g2/b2` sector formulas, the three-way `match` on which channel equals
`max` (checked in order red, green, blue), and the single-step wraparound fix.
Arguments are the byte channels; divisions are the exact `ℚ` counterparts of
the `f64` divisions in the source. -/
def hueFrac (r g b : ℕ) : ℚ :=
  let mx : ℚ := (max (max r g) b : ℕ) / 255
  let r' : ℚ := r / 255
  let g' : ℚ := g / 255
  let b' : ℚ := b / 255
  let mn : ℚ := (min (min r g) b : ℕ) / 255
  let delta : ℚ := mx - mn
  let r2 := ((mx - r') / 6 + delta / 2) / delta
  let g2 := ((mx - g') / 6 + delta / 2) / delta
  let b2 := ((mx - b') / 6 + delta / 2) / delta
  let h0 := if mx = r' then b2 - g2
            else if mx = g' then 1/3 + r2 - b2
            else 2/3 + g2 - r2
  wrap h0

/-- `HSL::from_rgb` on the three byte channels `rgb[0], rgb[1], rgb[2]`:
`max`/`min` over the `u8` values, normalisation by 255, luminosity
`(max+min)/2`, the achromatic early return when `delta == 0`, the two-branch
saturation formula, and hue = wrapped hue fraction times 360. -/
def from_rgb (r g b : ℕ) : HSL :=
  let mx : ℚ := (max (max r g) b : ℕ) / 255
  let mn : ℚ := (min (min r g) b : ℕ) / 255
  let l : ℚ := (mx + mn) / 2
  let delta : ℚ := mx - mn
  if delta = 0 then
    -- it's gray
    ⟨0, 0, l⟩
  else
    let s := if l < 1/2 then delta / (mx + mn) else delta / (2 - mx - mn)
    ⟨hueFrac r g b * 360, s, l⟩

/-- `HSL::from_rgb` takes `&[u8]` and indexes `rgb[0]`, `rgb[1]`, `rgb[2]`;
indexing a slice of fewer than three elements panics, modelled as `none`. -/
def from_rgb_slice (rgb : List ℕ) : Option HSL :=
  match rgb with
  | r :: g :: b :: _ => some (from_rgb r g b)
  | _ => none

/-- `HSL::to_rgb`: achromatic early return when `s == 0`, otherwise the
chroma bounds `q`, `p` and one `hue_to_rgb` call per channel with hue-fraction
offsets `+1/3`, `0`, `-1/3`. -/
def to_rgb (c : HSL) : ℕ × ℕ × ℕ :=
  if c.s = 0 then
    -- Achromatic, i.e., grey.
    let l := percent_to_byte c.l
    (l, l, l)
  else
    let h := c.h / 360
    let s := c.s
    let l := c.l
    let q := if l < 1/2 then l * (1 + s) else l + s - l * s
    let p := 2 * l - q
    (percent_to_byte (hue_to_rgb p q (h + 1/3)),
     percent_to_byte (hue_to_rgb p q h),
     percent_to_byte (hue_to_rgb p q (h - 1/3)))

/-- Modelled from the spec: "round to 2 decimal places (... centi-degree
precision: round to nearest 1/100 degree)".  This rounding step is described
by the spec for the hue output of the forward conversion; the source has no
such step. -/
def roundCenti (x : ℚ) : ℚ :=
  (fround (x * 100) : ℚ) / 100

/-- The hue interpolation helper as the specification words it: normalize `t`
into `[0,1]` by single-step wraparound, then return the four-sector piecewise
linear interpolation with the spec's two-sided sector conditions. -/
def spec_hue_interp (p q t : ℚ) : ℚ :=
  let t' := if t < 0 then t + 1 else if t > 1 then t - 1 else t
  if t' < 1/6 then p + (q - p) * 6 * t'
  else if 1/6 ≤ t' ∧ t' < 1/2 then q
  else if 1/2 ≤ t' ∧ t' < 2/3 then p + (q - p) * (2/3 - t') * 6
  else p

example : from_rgb 255 255 0 = ⟨60, 1, 1/2⟩ := by
  norm_num [from_rgb, hueFrac, wrap]

example : to_rgb ⟨60, 1, 1/2⟩ = (255, 255, 0) := by
  norm_num [to_rgb, hue_to_rgb, hue_to_rgb_core, wrap, percent_to_byte, fround]
  omega

example : from_rgb 0 0 0 = ⟨0, 0, 0⟩ := by
  norm_num [from_rgb]

example : from_rgb 255 255 255 = ⟨0, 0, 1⟩ := by
  norm_num [from_rgb]

example : to_rgb (from_rgb 18 35 67) = (18, 35, 67) := by
  norm_num [from_rgb, hueFrac, to_rgb, hue_to_rgb, hue_to_rgb_core, wrap, percent_to_byte, fround]
  omega

/-! ### Basic lemmas about the helpers -/

theorem wrap_of_neg (t : ℚ) (h : t < 0) : wrap t = t + 1 := by
  simp [wrap, h]

theorem wrap_of_gt (t : ℚ) (h : 1 < t) : wrap t = t - 1 := by
  have h0 : ¬ t < 0 := by linarith
  simp [wrap, h, h0]

theorem wrap_of_mem (t : ℚ) (h0 : 0 ≤ t) (h1 : t ≤ 1) : wrap t = t := by
  have h0' : ¬ t < 0 := by linarith
  have h1' : ¬ t > 1 := by linarith
  simp [wrap, h0', h1']

theorem core_sector1 (p q t : ℚ) (h1 : t < 1/6) :
    hue_to_rgb_core p q t = p + (q - p) * 6 * t := by
  unfold hue_to_rgb_core
  split_ifs <;> first | rfl | linarith

theorem core_sector2 (p q t : ℚ) (h0 : 1/6 ≤ t) (h1 : t < 1/2) :
    hue_to_rgb_core p q t = q := by
  unfold hue_to_rgb_core
  split_ifs <;> first | rfl | linarith

theorem core_sector3 (p q t : ℚ) (h0 : 1/2 ≤ t) (h1 : t < 2/3) :
    hue_to_rgb_core p q t = p + (q - p) * (2/3 - t) * 6 := by
  unfold hue_to_rgb_core
  split_ifs <;> first | rfl | linarith

theorem core_sector4 (p q t : ℚ) (h0 : 2/3 ≤ t) :
    hue_to_rgb_core p q t = p := by
  unfold hue_to_rgb_core
  split_ifs <;> first | rfl | linarith

theorem fround_natCast (n : ℕ) : fround (n : ℚ) = n := by
  have h : (0:ℚ) ≤ (n : ℚ) := by positivity
  rw [fround, if_neg (not_lt.mpr h)]
  have hc : ((n : ℚ) + 1/2) = ((n : ℤ) : ℚ) + 1/2 := by push_cast; ring
  rw [hc, Int.floor_int_add]
  norm_num

theorem percent_to_byte_frac {n : ℕ} (hn : n ≤ 255) :
    percent_to_byte ((n : ℚ) / 255) = n := by
  have h255 : ((n : ℚ) / 255) * 255 = (n : ℚ) := by field_simp
  rw [percent_to_byte, h255, fround_natCast]
  simp [hn]

/-! ### Inversion of the chromatic hue computation, per maximal channel

Each lemma takes the normalised channel values `R G B`, the normalised
minimum `mn`, and shows that the three `hue_to_rgb` calls made by `to_rgb`
with chroma bounds `p = mn`, `q = max` recover the channels exactly. -/

theorem chans_caseR {R G B mn : ℚ} (hG : G ≤ R) (hB : B ≤ R)
    (hmn : mn = min G B) (hlt : mn < R) :
    hue_to_rgb mn R (wrap ((G - B) / (6 * (R - mn))) + 1/3) = R ∧
      hue_to_rgb mn R (wrap ((G - B) / (6 * (R - mn)))) = G ∧
        hue_to_rgb mn R (wrap ((G - B) / (6 * (R - mn))) - 1/3) = B := by
  unfold hue_to_rgb
  rcases le_total B G with hBG | hGB
  · -- green is at least blue, so the minimum is blue and the fraction is nonnegative
    have hmnB : mn = B := by rw [hmn, min_eq_right hBG]
    rw [hmnB] at hlt ⊢
    have hd : (0:ℚ) < 6 * (R - B) := by linarith
    have hRB : R - B ≠ 0 := by linarith
    set t0 : ℚ := (G - B) / (6 * (R - B)) with ht0
    have ht0nn : 0 ≤ t0 := div_nonneg (by linarith) (by linarith)
    have ht0le : t0 ≤ 1/6 := by
      rw [ht0, div_le_iff hd]; linarith
    rw [wrap_of_mem t0 ht0nn (by linarith)]
    refine ⟨?_, ?_, ?_⟩
    · rw [wrap_of_mem (t0 + 1/3) (by linarith) (by linarith)]
      rcases lt_or_eq_of_le ht0le with h | h
      · rw [core_sector2 B R (t0 + 1/3) (by linarith) (by linarith)]
      · rw [core_sector3 B R (t0 + 1/3) (by linarith) (by linarith), h]; ring
    · rw [wrap_of_mem t0 ht0nn (by linarith)]
      rcases lt_or_eq_of_le ht0le with h | h
      · rw [core_sector1 B R t0 h, ht0]
        field_simp
        ring
      · rw [core_sector2 B R t0 (by linarith) (by linarith)]
        rw [ht0, div_eq_iff (by linarith : 6 * (R - B) ≠ 0)] at h
        linarith
    · rw [wrap_of_neg (t0 - 1/3) (by linarith)]
      rw [core_sector4 B R (t0 - 1/3 + 1) (by linarith)]
  · -- blue exceeds green: the fraction is negative, so the wraparound fires
    have hmnG : mn = G := by rw [hmn, min_eq_left hGB]
    rw [hmnG] at hlt ⊢
    have hd : (0:ℚ) < 6 * (R - G) := by linarith
    have hRG : R - G ≠ 0 := by linarith
    set t0 : ℚ := (G - B) / (6 * (R - G)) with ht0
    have ht0ge : -(1/6) ≤ t0 := by
      rw [ht0, le_div_iff hd]; linarith
    rcases eq_or_lt_of_le hGB with hEq | hGBlt
    · -- G = B: the fraction is zero
      have ht00 : t0 = 0 := by rw [ht0, hEq]; simp
      rw [ht00]
      rw [wrap_of_mem 0 le_rfl (by norm_num)]
      refine ⟨?_, ?_, ?_⟩
      · rw [wrap_of_mem (0 + 1/3) (by norm_num) (by norm_num)]
        rw [core_sector2 G R (0 + 1/3) (by norm_num) (by norm_num)]
      · rw [wrap_of_mem 0 le_rfl (by norm_num)]
        rw [core_sector1 G R 0 (by norm_num)]
        ring
      · rw [wrap_of_neg (0 - 1/3) (by norm_num)]
        rw [core_sector4 G R (0 - 1/3 + 1) (by norm_num), hEq]
    · have ht0neg : t0 < 0 :=
        div_neg_of_neg_of_pos (by linarith) (by linarith)
      rw [wrap_of_neg t0 ht0neg]
      refine ⟨?_, ?_, ?_⟩
      · rw [wrap_of_gt (t0 + 1 + 1/3) (by linarith)]
        rw [core_sector2 G R (t0 + 1 + 1/3 - 1) (by linarith) (by linarith)]
      · rw [wrap_of_mem (t0 + 1) (by linarith) (by linarith)]
        rw [core_sector4 G R (t0 + 1) (by linarith)]
      · rw [wrap_of_mem (t0 + 1 - 1/3) (by linarith) (by linarith)]
        rw [core_sector3 G R (t0 + 1 - 1/3) (by linarith) (by linarith), ht0]
        field_simp
        ring

theorem chans_caseG {R G B mn : ℚ} (hR : R ≤ G) (hB : B ≤ G)
    (hmn : mn = min R B) (hlt : mn < G) :
    hue_to_rgb mn G (wrap (1/3 + (B - R) / (6 * (G - mn))) + 1/3) = R ∧
      hue_to_rgb mn G (wrap (1/3 + (B - R) / (6 * (G - mn)))) = G ∧
        hue_to_rgb mn G (wrap (1/3 + (B - R) / (6 * (G - mn))) - 1/3) = B := by
  unfold hue_to_rgb
  rcases le_total R B with hRB | hBR
  · -- red at most blue: the minimum is red, the offset fraction is nonnegative
    have hmnR : mn = R := by rw [hmn, min_eq_left hRB]
    rw [hmnR] at hlt ⊢
    have hd : (0:ℚ) < 6 * (G - R) := by linarith
    have hGR : G - R ≠ 0 := by linarith
    set e : ℚ := (B - R) / (6 * (G - R)) with he
    have henn : 0 ≤ e := div_nonneg (by linarith) (by linarith)
    have hele : e ≤ 1/6 := by
      rw [he, div_le_iff hd]; linarith
    rw [wrap_of_mem (1/3 + e) (by linarith) (by linarith)]
    refine ⟨?_, ?_, ?_⟩
    · rw [wrap_of_mem (1/3 + e + 1/3) (by linarith) (by linarith)]
      rw [core_sector4 R G (1/3 + e + 1/3) (by linarith)]
    · rw [wrap_of_mem (1/3 + e) (by linarith) (by linarith)]
      rcases lt_or_eq_of_le hele with h | h
      · rw [core_sector2 R G (1/3 + e) (by linarith) (by linarith)]
      · rw [core_sector3 R G (1/3 + e) (by linarith) (by linarith), h]; ring
    · rw [wrap_of_mem (1/3 + e - 1/3) (by linarith) (by linarith)]
      rcases lt_or_eq_of_le hele with h | h
      · rw [core_sector1 R G (1/3 + e - 1/3) (by linarith), he]
        field_simp
        ring
      · rw [core_sector2 R G (1/3 + e - 1/3) (by linarith) (by linarith)]
        rw [he, div_eq_iff (by linarith : 6 * (G - R) ≠ 0)] at h
        linarith
  · -- blue at most red: the minimum is blue, the offset fraction is nonpositive
    have hmnB : mn = B := by rw [hmn, min_eq_right hBR]
    rw [hmnB] at hlt ⊢
    have hd : (0:ℚ) < 6 * (G - B) := by linarith
    have hGB : G - B ≠ 0 := by linarith
    have hd' : 6 * (G - B) ≠ 0 := by linarith
    set e : ℚ := (B - R) / (6 * (G - B)) with he
    have henp : e ≤ 0 :=
      div_nonpos_of_nonpos_of_nonneg (by linarith) (by linarith)
    have hege : -(1/6) ≤ e := by
      rw [he, le_div_iff hd]; linarith
    rw [wrap_of_mem (1/3 + e) (by linarith) (by linarith)]
    refine ⟨?_, ?_, ?_⟩
    · rcases lt_or_eq_of_le henp with h | h
      · rw [wrap_of_mem (1/3 + e + 1/3) (by linarith) (by linarith)]
        rw [core_sector3 B G (1/3 + e + 1/3) (by linarith) (by linarith), he]
        field_simp
        ring
      · have h0 : (B - R) / (6 * (G - B)) = 0 := by rw [← he, h]
        have hBR0 : B - R = 0 := by
          rcases div_eq_zero_iff.mp h0 with h1 | h1
          · exact h1
          · exact absurd h1 hd'
        rw [wrap_of_mem (1/3 + e + 1/3) (by linarith) (by linarith)]
        rw [core_sector4 B G (1/3 + e + 1/3) (by linarith)]
        linarith
    · rw [wrap_of_mem (1/3 + e) (by linarith) (by linarith)]
      rw [core_sector2 B G (1/3 + e) (by linarith) (by linarith)]
    · rcases lt_or_eq_of_le henp with h | h
      · rw [wrap_of_neg (1/3 + e - 1/3) (by linarith)]
        rw [core_sector4 B G (1/3 + e - 1/3 + 1) (by linarith)]
      · rw [wrap_of_mem (1/3 + e - 1/3) (by linarith) (by linarith)]
        rw [core_sector1 B G (1/3 + e - 1/3) (by linarith), h]
        ring

theorem chans_caseB {R G B mn : ℚ} (hR : R < B) (hG : G < B)
    (hmn : mn = min R G) :
    hue_to_rgb mn B (wrap (2/3 + (R - G) / (6 * (B - mn))) + 1/3) = R ∧
      hue_to_rgb mn B (wrap (2/3 + (R - G) / (6 * (B - mn)))) = G ∧
        hue_to_rgb mn B (wrap (2/3 + (R - G) / (6 * (B - mn))) - 1/3) = B := by
  unfold hue_to_rgb
  rcases le_total G R with hGR | hRG
  · -- green at most red: the minimum is green, the offset fraction is nonnegative
    have hmnG : mn = G := by rw [hmn, min_eq_right hGR]
    rw [hmnG]
    have hd : (0:ℚ) < 6 * (B - G) := by linarith
    have hBG : B - G ≠ 0 := by linarith
    have hd' : 6 * (B - G) ≠ 0 := by linarith
    set e : ℚ := (R - G) / (6 * (B - G)) with he
    have henn : 0 ≤ e := div_nonneg (by linarith) (by linarith)
    have helt : e < 1/6 := by
      rw [he, div_lt_iff hd]; linarith
    rw [wrap_of_mem (2/3 + e) (by linarith) (by linarith)]
    refine ⟨?_, ?_, ?_⟩
    · rcases eq_or_lt_of_le henn with h | h
      · have h0 : (R - G) / (6 * (B - G)) = 0 := by rw [← he, ← h]
        have hRG0 : R - G = 0 := by
          rcases div_eq_zero_iff.mp h0 with h1 | h1
          · exact h1
          · exact absurd h1 hd'
        rw [wrap_of_mem (2/3 + e + 1/3) (by linarith) (by linarith)]
        rw [core_sector4 G B (2/3 + e + 1/3) (by linarith)]
        linarith
      · rw [wrap_of_gt (2/3 + e + 1/3) (by linarith)]
        rw [core_sector1 G B (2/3 + e + 1/3 - 1) (by linarith), he]
        field_simp
        ring
    · rw [wrap_of_mem (2/3 + e) (by linarith) (by linarith)]
      rw [core_sector4 G B (2/3 + e) (by linarith)]
    · rw [wrap_of_mem (2/3 + e - 1/3) (by linarith) (by linarith)]
      rw [core_sector2 G B (2/3 + e - 1/3) (by linarith) (by linarith)]
  · -- red at most green: the minimum is red, the offset fraction is nonpositive
    have hmnR : mn = R := by rw [hmn, min_eq_left hRG]
    rw [hmnR]
    have hd : (0:ℚ) < 6 * (B - R) := by linarith
    have hBR : B - R ≠ 0 := by linarith
    have hd' : 6 * (B - R) ≠ 0 := by linarith
    set e : ℚ := (R - G) / (6 * (B - R)) with he
    have henp : e ≤ 0 :=
      div_nonpos_of_nonpos_of_nonneg (by linarith) (by linarith)
    have hegt : -(1/6) < e := by
      rw [he, lt_div_iff hd]; linarith
    rw [wrap_of_mem (2/3 + e) (by linarith) (by linarith)]
    refine ⟨?_, ?_, ?_⟩
    · rw [wrap_of_mem (2/3 + e + 1/3) (by linarith) (by linarith)]
      rw [core_sector4 R B (2/3 + e + 1/3) (by linarith)]
    · rcases lt_or_eq_of_le henp with h | h
      · rw [wrap_of_mem (2/3 + e) (by linarith) (by linarith)]
        rw [core_sector3 R B (2/3 + e) (by linarith) (by linarith), he]
        field_simp
        ring
      · have h0 : (R - G) / (6 * (B - R)) = 0 := by rw [← he, h]
        have hRG0 : R - G = 0 := by
          rcases div_eq_zero_iff.mp h0 with h1 | h1
          · exact h1
          · exact absurd h1 hd'
        rw [wrap_of_mem (2/3 + e) (by linarith) (by linarith)]
        rw [core_sector4 R B (2/3 + e) (by linarith)]
        linarith
    · rw [wrap_of_mem (2/3 + e - 1/3) (by linarith) (by linarith)]
      rw [core_sector2 R B (2/3 + e - 1/3) (by linarith) (by linarith)]

/-! ### Linking `hueFrac` to the per-case forms -/

theorem norm_eq_iff (a b : ℕ) : (a:ℚ)/255 = (b:ℚ)/255 ↔ a = b := by
  rw [div_eq_div_iff (by norm_num) (by norm_num)]
  constructor
  · intro h
    have h' : (a:ℚ) = b := by
      have h255 : (255:ℚ) ≠ 0 := by norm_num
      exact mul_right_cancel₀ h255 h
    exact_mod_cast h'
  · intro h
    rw [h]

set_option maxHeartbeats 1000000 in
theorem hueFrac_caseR (r g b : ℕ) (hmax : max (max r g) b = r)
    (hne : min (min r g) b ≠ r) :
    hueFrac r g b = wrap (((g:ℚ)/255 - (b:ℚ)/255) /
      (6 * ((r:ℚ)/255 - ((min (min r g) b : ℕ):ℚ)/255))) := by
  have hd : (r:ℚ)/255 - ((min (min r g) b : ℕ):ℚ)/255 ≠ 0 := by
    intro hc
    exact hne (((norm_eq_iff _ _).mp (by linarith)).symm)
  simp only [hueFrac]
  rw [hmax, if_pos rfl]
  set u : ℚ := ((min (min r g) b : ℕ):ℚ) with hu
  have hd3 : (r:ℚ) - u ≠ 0 := by
    intro hc
    apply hd
    rw [div_sub_div_same, hc]
    norm_num
  congr 1
  field_simp [hd3]
  ring

set_option maxHeartbeats 1000000 in
theorem hueFrac_caseG (r g b : ℕ) (hmax : max (max r g) b = g)
    (hner : ¬ ((max (max r g) b : ℕ):ℚ)/255 = (r:ℚ)/255)
    (hne : min (min r g) b ≠ g) :
    hueFrac r g b = wrap (1/3 + ((b:ℚ)/255 - (r:ℚ)/255) /
      (6 * ((g:ℚ)/255 - ((min (min r g) b : ℕ):ℚ)/255))) := by
  have hd : (g:ℚ)/255 - ((min (min r g) b : ℕ):ℚ)/255 ≠ 0 := by
    intro hc
    exact hne (((norm_eq_iff _ _).mp (by linarith)).symm)
  rw [hmax] at hner
  simp only [hueFrac]
  rw [hmax, if_neg hner, if_pos rfl]
  set u : ℚ := ((min (min r g) b : ℕ):ℚ) with hu
  have hd3 : (g:ℚ) - u ≠ 0 := by
    intro hc
    apply hd
    rw [div_sub_div_same, hc]
    norm_num
  congr 1
  field_simp [hd3]
  ring

set_option maxHeartbeats 1000000 in
theorem hueFrac_caseB (r g b : ℕ)
    (hner : ¬ ((max (max r g) b : ℕ):ℚ)/255 = (r:ℚ)/255)
    (hneg : ¬ ((max (max r g) b : ℕ):ℚ)/255 = (g:ℚ)/255)
    (hmax : max (max r g) b = b)
    (hne : min (min r g) b ≠ b) :
    hueFrac r g b = wrap (2/3 + ((r:ℚ)/255 - (g:ℚ)/255) /
      (6 * ((b:ℚ)/255 - ((min (min r g) b : ℕ):ℚ)/255))) := by
  have hd : (b:ℚ)/255 - ((min (min r g) b : ℕ):ℚ)/255 ≠ 0 := by
    intro hc
    exact hne (((norm_eq_iff _ _).mp (by linarith)).symm)
  rw [hmax] at hner hneg
  simp only [hueFrac]
  rw [hmax, if_neg hner, if_neg hneg]
  set u : ℚ := ((min (min r g) b : ℕ):ℚ) with hu
  have hd3 : (b:ℚ) - u ≠ 0 := by
    intro hc
    apply hd
    rw [div_sub_div_same, hc]
    norm_num
  congr 1
  field_simp [hd3]
  ring

/-- Evaluation of the chroma bounds in `to_rgb` when the input comes from a
chromatic `from_rgb` call: `q` recovers the maximum, `p` the minimum, and the
saturation is positive. -/
theorem pq_eval {s mn mx : ℚ} (hmn0 : 0 ≤ mn) (hmnx : mn < mx) (hmx1 : mx ≤ 1)
    (hs : s = if (mx + mn)/2 < 1/2 then (mx - mn) / (mx + mn)
              else (mx - mn) / (2 - mx - mn)) :
    (if (mx + mn)/2 < 1/2 then (mx + mn)/2 * (1 + s)
     else (mx + mn)/2 + s - (mx + mn)/2 * s) = mx ∧
      2 * ((mx + mn)/2) -
        (if (mx + mn)/2 < 1/2 then (mx + mn)/2 * (1 + s)
         else (mx + mn)/2 + s - (mx + mn)/2 * s) = mn ∧ 0 < s := by
  have hmx0 : 0 < mx := by linarith
  rcases lt_or_le ((mx + mn)/2) (1/2) with hc | hc
  · rw [if_pos hc] at hs
    rw [if_pos hc]
    subst hs
    have hden : (0:ℚ) < mx + mn := by linarith
    refine ⟨?_, ?_, ?_⟩
    · field_simp
      ring
    · field_simp
      ring
    · exact div_pos (by linarith) hden
  · rw [if_neg (not_lt.mpr hc)] at hs
    rw [if_neg (not_lt.mpr hc)]
    subst hs
    have hden : (0:ℚ) < 2 - mx - mn := by linarith
    refine ⟨?_, ?_, ?_⟩
    · field_simp
      ring
    · field_simp
      ring
    · exact div_pos (by linarith) hden

/-! ### Round trip: `to_rgb` inverts `from_rgb` exactly over `ℚ` -/

theorem cast_div_le {a b : ℕ} (h : a ≤ b) : (a:ℚ)/255 ≤ (b:ℚ)/255 := by
  have h' : (a:ℚ) ≤ b := by exact_mod_cast h
  linarith

theorem cast_div_lt {a b : ℕ} (h : a < b) : (a:ℚ)/255 < (b:ℚ)/255 := by
  have h' : (a:ℚ) < b := by exact_mod_cast h
  linarith

theorem cast_min_div (a b : ℕ) :
    ((min a b : ℕ):ℚ)/255 = min ((a:ℚ)/255) ((b:ℚ)/255) := by
  rcases le_total a b with h | h
  · rw [min_eq_left h, min_eq_left (cast_div_le h)]
  · rw [min_eq_right h, min_eq_right (cast_div_le h)]

theorem to_rgb_from_rgb (r g b : ℕ) (hr : r ≤ 255) (hg : g ≤ 255) (hb : b ≤ 255) :
    to_rgb (from_rgb r g b) = (r, g, b) := by
  have hmnr : min (min r g) b ≤ r := le_trans (min_le_left _ _) (min_le_left _ _)
  have hmxr : r ≤ max (max r g) b := le_trans (le_max_left _ _) (le_max_left _ _)
  have hmx255 : max (max r g) b ≤ 255 := by omega
  simp only [from_rgb]
  by_cases h0 : ((max (max r g) b : ℕ):ℚ)/255 - ((min (min r g) b : ℕ):ℚ)/255 = 0
  · -- achromatic: all three bytes coincide
    have heq : min (min r g) b = max (max r g) b :=
      ((norm_eq_iff _ _).mp (by linarith)).symm
    have hgr : g = r := by omega
    have hbr : b = r := by omega
    rw [if_pos h0]
    simp only [to_rgb]
    rw [if_pos trivial, hgr, hbr]
    have hl : ((((max (max r r) r : ℕ):ℚ))/255 + (((min (min r r) r : ℕ):ℚ))/255)/2
        = (r:ℚ)/255 := by
      rw [max_self, max_self, min_self, min_self]
      ring
    rw [hl, percent_to_byte_frac hr]
  · -- chromatic
    rw [if_neg h0]
    have hmnmxlt : min (min r g) b < max (max r g) b :=
      lt_of_le_of_ne (le_trans hmnr hmxr) (fun hc => h0 (by rw [hc]; ring))
    have hmnx : ((min (min r g) b : ℕ):ℚ)/255 < ((max (max r g) b : ℕ):ℚ)/255 :=
      cast_div_lt hmnmxlt
    have hmn0 : (0:ℚ) ≤ ((min (min r g) b : ℕ):ℚ)/255 := by positivity
    have hmx1 : ((max (max r g) b : ℕ):ℚ)/255 ≤ 1 := by
      have h' : ((max (max r g) b : ℕ):ℚ) ≤ 255 := by exact_mod_cast hmx255
      linarith
    obtain ⟨hq, hp, hspos⟩ := pq_eval hmn0 hmnx hmx1 rfl
    simp only [to_rgb]
    rw [if_neg (ne_of_gt hspos)]
    rw [hq] at hp
    rw [hq, hp]
    have h360 : hueFrac r g b * 360 / 360 = hueFrac r g b := by
      field_simp
    rw [h360]
    by_cases hcr : max (max r g) b = r
    · -- red is the maximum
      have hne : min (min r g) b ≠ r := by omega
      have hmxrQ : ((max (max r g) b : ℕ):ℚ)/255 = (r:ℚ)/255 := by rw [hcr]
      rw [hmxrQ, hueFrac_caseR r g b hcr hne]
      have hmneq : ((min (min r g) b : ℕ):ℚ)/255
          = min ((g:ℚ)/255) ((b:ℚ)/255) := by
        have h1 : min (min r g) b = min g b := by omega
        rw [h1, cast_min_div]
      obtain ⟨c1, c2, c3⟩ := chans_caseR
        (cast_div_le (show g ≤ r by omega)) (cast_div_le (show b ≤ r by omega))
        hmneq (cast_div_lt (show min (min r g) b < r by omega))
      rw [c1, c2, c3, percent_to_byte_frac hr, percent_to_byte_frac hg,
        percent_to_byte_frac hb]
    · by_cases hcg : max (max r g) b = g
      · -- green is the maximum (and the red test failed)
        have hne : min (min r g) b ≠ g := by omega
        have hner : ¬ ((max (max r g) b : ℕ):ℚ)/255 = (r:ℚ)/255 :=
          fun hc => hcr ((norm_eq_iff _ _).mp hc)
        have hmxgQ : ((max (max r g) b : ℕ):ℚ)/255 = (g:ℚ)/255 := by rw [hcg]
        rw [hmxgQ, hueFrac_caseG r g b hcg hner hne]
        have hmneq : ((min (min r g) b : ℕ):ℚ)/255
            = min ((r:ℚ)/255) ((b:ℚ)/255) := by
          have h1 : min (min r g) b = min r b := by omega
          rw [h1, cast_min_div]
        obtain ⟨c1, c2, c3⟩ := chans_caseG
          (cast_div_le (show r ≤ g by omega)) (cast_div_le (show b ≤ g by omega))
          hmneq (cast_div_lt (show min (min r g) b < g by omega))
        rw [c1, c2, c3, percent_to_byte_frac hr, percent_to_byte_frac hg,
          percent_to_byte_frac hb]
      · -- blue is the maximum (both earlier tests failed)
        have hcb : max (max r g) b = b := by omega
        have hne : min (min r g) b ≠ b := by omega
        have hner : ¬ ((max (max r g) b : ℕ):ℚ)/255 = (r:ℚ)/255 :=
          fun hc => hcr ((norm_eq_iff _ _).mp hc)
        have hneg : ¬ ((max (max r g) b : ℕ):ℚ)/255 = (g:ℚ)/255 :=
          fun hc => hcg ((norm_eq_iff _ _).mp hc)
        have hmxbQ : ((max (max r g) b : ℕ):ℚ)/255 = (b:ℚ)/255 := by rw [hcb]
        rw [hmxbQ, hueFrac_caseB r g b hner hneg hcb hne]
        have hmneq : ((min (min r g) b : ℕ):ℚ)/255
            = min ((r:ℚ)/255) ((g:ℚ)/255) := by
          have h1 : min (min r g) b = min r g := by omega
          rw [h1, cast_min_div]
        obtain ⟨c1, c2, c3⟩ := chans_caseB
          (cast_div_lt (show r < b by omega)) (cast_div_lt (show g < b by omega))
          hmneq
        rw [c1, c2, c3, percent_to_byte_frac hr, percent_to_byte_frac hg,
          percent_to_byte_frac hb]

/-! ### Range lemmas -/

theorem wrap_mem_Ico (t : ℚ) (h1 : -(1/6) ≤ t) (h2 : t ≤ 5/6) :
    0 ≤ wrap t ∧ wrap t < 1 := by
  unfold wrap
  split_ifs <;> constructor <;> linarith

theorem div6_bounds (x : ℚ) {d : ℚ} (hd : 0 < d) (h1 : -d ≤ x) (h2 : x ≤ d) :
    -(1/6) ≤ x/(6*d) ∧ x/(6*d) ≤ 1/6 := by
  constructor
  · rw [le_div_iff (by linarith)]
    linarith
  · rw [div_le_iff (by linarith)]
    linarith

theorem hueFrac_bounds (r g b : ℕ)
    (hlt : min (min r g) b < max (max r g) b) :
    0 ≤ hueFrac r g b ∧ hueFrac r g b < 1 := by
  by_cases hcr : max (max r g) b = r
  · rw [hueFrac_caseR r g b hcr (by omega)]
    have hd : (0:ℚ) < (r:ℚ)/255 - ((min (min r g) b : ℕ):ℚ)/255 := by
      have := cast_div_lt (show min (min r g) b < r by omega)
      linarith
    obtain ⟨e1, e2⟩ := div6_bounds ((g:ℚ)/255 - (b:ℚ)/255) hd
      (by
        have h1 := cast_div_le (show b ≤ r by omega)
        have h2 := cast_div_le (show min (min r g) b ≤ g by omega)
        linarith)
      (by
        have h1 := cast_div_le (show g ≤ r by omega)
        have h2 := cast_div_le (show min (min r g) b ≤ b by omega)
        linarith)
    exact wrap_mem_Ico _ (by linarith) (by linarith)
  · by_cases hcg : max (max r g) b = g
    · rw [hueFrac_caseG r g b hcg (fun hc => hcr ((norm_eq_iff _ _).mp hc)) (by omega)]
      have hd : (0:ℚ) < (g:ℚ)/255 - ((min (min r g) b : ℕ):ℚ)/255 := by
        have := cast_div_lt (show min (min r g) b < g by omega)
        linarith
      obtain ⟨e1, e2⟩ := div6_bounds ((b:ℚ)/255 - (r:ℚ)/255) hd
        (by
          have h1 := cast_div_le (show r ≤ g by omega)
          have h2 := cast_div_le (show min (min r g) b ≤ b by omega)
          linarith)
        (by
          have h1 := cast_div_le (show b ≤ g by omega)
          have h2 := cast_div_le (show min (min r g) b ≤ r by omega)
          linarith)
      exact wrap_mem_Ico _ (by linarith) (by linarith)
    · have hcb : max (max r g) b = b := by omega
      rw [hueFrac_caseB r g b (fun hc => hcr ((norm_eq_iff _ _).mp hc))
        (fun hc => hcg ((norm_eq_iff _ _).mp hc)) hcb (by omega)]
      have hd : (0:ℚ) < (b:ℚ)/255 - ((min (min r g) b : ℕ):ℚ)/255 := by
        have := cast_div_lt (show min (min r g) b < b by omega)
        linarith
      obtain ⟨e1, e2⟩ := div6_bounds ((r:ℚ)/255 - (g:ℚ)/255) hd
        (by
          have h1 := cast_div_le (show g ≤ b by omega)
          have h2 := cast_div_le (show min (min r g) b ≤ r by omega)
          linarith)
        (by
          have h1 := cast_div_le (show r ≤ b by omega)
          have h2 := cast_div_le (show min (min r g) b ≤ g by omega)
          linarith)
      exact wrap_mem_Ico _ (by linarith) (by linarith)

theorem fround_nonneg {y : ℚ} (hy : 0 ≤ y) : 0 ≤ fround y := by
  rw [fround, if_neg (not_lt.mpr hy)]
  exact Int.floor_nonneg.mpr (by linarith)

theorem fround_nonpos {y : ℚ} (hy : y ≤ 0) : fround y ≤ 0 := by
  rw [fround]
  split_ifs with h
  · have h0 : (0:ℤ) ≤ ⌊-y + 1/2⌋ := Int.floor_nonneg.mpr (by linarith)
    linarith
  · have hy0 : y = 0 := le_antisymm hy (not_lt.mp h)
    rw [hy0]
    norm_num

theorem fround_le_255 {y : ℚ} (hy : y ≤ 255) : fround y ≤ 255 := by
  rw [fround]
  split_ifs with h
  · have h0 : (0:ℤ) ≤ ⌊-y + 1/2⌋ := Int.floor_nonneg.mpr (by linarith)
    linarith
  · calc ⌊y + 1/2⌋ ≤ ⌊(511:ℚ)/2⌋ := Int.floor_le_floor (by linarith)
    _ = 255 := by norm_num

theorem fround_ge_255 {y : ℚ} (hy : 255 ≤ y) : 255 ≤ fround y := by
  rw [fround, if_neg (not_lt.mpr (by linarith))]
  exact Int.le_floor.mpr (by push_cast; linarith)

/-- When the fraction is in `[0,1]`, the saturating `u8` cast in
`percent_to_byte` does nothing: the byte is exactly the rounded value. -/
theorem percent_to_byte_eq_fround {x : ℚ} (h0 : 0 ≤ x) (h1 : x ≤ 1) :
    (percent_to_byte x : ℤ) = fround (x * 255) := by
  have hy0 : 0 ≤ x * 255 := by linarith
  have hy1 : x * 255 ≤ 255 := by linarith
  have hf0 : 0 ≤ fround (x * 255) := fround_nonneg hy0
  have hf1 : fround (x * 255) ≤ 255 := fround_le_255 hy1
  rw [percent_to_byte, min_eq_left (by omega)]
  omega

theorem hue_to_rgb_mem {p q : ℚ} (t : ℚ) (hp : 0 ≤ p) (hpq : p ≤ q) (hq : q ≤ 1)
    (ht1 : -1 ≤ t) (ht2 : t ≤ 2) :
    0 ≤ hue_to_rgb p q t ∧ hue_to_rgb p q t ≤ 1 := by
  unfold hue_to_rgb wrap hue_to_rgb_core
  split_ifs <;> constructor <;> nlinarith

theorem percent_to_byte_of_ge_one {l : ℚ} (hl : 1 ≤ l) : percent_to_byte l = 255 := by
  have h255 : (255:ℚ) ≤ l * 255 := by linarith
  have hge := fround_ge_255 h255
  rw [percent_to_byte]
  omega

theorem percent_to_byte_of_nonpos {l : ℚ} (hl : l ≤ 0) : percent_to_byte l = 0 := by
  have h0 : l * 255 ≤ 0 := by linarith
  have hle := fround_nonpos h0
  rw [percent_to_byte]
  omega

/-! ### Claim theorems -/

/-- C1: for every triple of bytes `(r,g,b)`, converting to HSL with
`HSL::from_rgb` and back with `HSL::to_rgb` yields a triple whose each channel
differs from the original by at most 2.  (Over exact rational arithmetic the
round trip is in fact exact.) -/
theorem from_rgb_to_rgb_roundtrip (r g b : ℕ)
    (hr : r ≤ 255) (hg : g ≤ 255) (hb : b ≤ 255) :
    |((to_rgb (from_rgb r g b)).1 : ℤ) - (r:ℤ)| ≤ 2 ∧
      |((to_rgb (from_rgb r g b)).2.1 : ℤ) - (g:ℤ)| ≤ 2 ∧
        |((to_rgb (from_rgb r g b)).2.2 : ℤ) - (b:ℤ)| ≤ 2 := by
  rw [to_rgb_from_rgb r g b hr hg hb]
  norm_num

/-- Witness for C1 at the concrete byte triple `(18, 35, 67)`. -/
theorem from_rgb_to_rgb_roundtrip_witness :
    (18 ≤ 255 ∧ 35 ≤ 255 ∧ 67 ≤ 255) ∧
      |((to_rgb (from_rgb 18 35 67)).1 : ℤ) - 18| ≤ 2 ∧
        |((to_rgb (from_rgb 18 35 67)).2.1 : ℤ) - 35| ≤ 2 ∧
          |((to_rgb (from_rgb 18 35 67)).2.2 : ℤ) - 67| ≤ 2 :=
  ⟨⟨by norm_num, by norm_num, by norm_num⟩,
    from_rgb_to_rgb_roundtrip 18 35 67 (by norm_num) (by norm_num) (by norm_num)⟩

/-- C2: for every triple of bytes, `HSL::from_rgb` returns hue in `[0,360)`,
saturation in `[0,1]` and lightness in `[0,1]`. -/
theorem from_rgb_range (r g b : ℕ)
    (hr : r ≤ 255) (hg : g ≤ 255) (hb : b ≤ 255) :
    (0 ≤ (from_rgb r g b).h ∧ (from_rgb r g b).h < 360) ∧
      (0 ≤ (from_rgb r g b).s ∧ (from_rgb r g b).s ≤ 1) ∧
        (0 ≤ (from_rgb r g b).l ∧ (from_rgb r g b).l ≤ 1) := by
  have hmx255 : max (max r g) b ≤ 255 := by omega
  have hmn0 : (0:ℚ) ≤ ((min (min r g) b : ℕ):ℚ)/255 := by positivity
  have hmx1 : ((max (max r g) b : ℕ):ℚ)/255 ≤ 1 := by
    have h' : ((max (max r g) b : ℕ):ℚ) ≤ 255 := by exact_mod_cast hmx255
    linarith
  have hmnmx : ((min (min r g) b : ℕ):ℚ)/255 ≤ ((max (max r g) b : ℕ):ℚ)/255 :=
    cast_div_le (by omega)
  simp only [from_rgb]
  by_cases h0 : ((max (max r g) b : ℕ):ℚ)/255 - ((min (min r g) b : ℕ):ℚ)/255 = 0
  · rw [if_pos h0]
    dsimp only
    refine ⟨⟨le_rfl, by norm_num⟩, ⟨le_rfl, by norm_num⟩, by positivity, by linarith⟩
  · rw [if_neg h0]
    dsimp only
    have hlt : min (min r g) b < max (max r g) b :=
      lt_of_le_of_ne (by omega) (fun hc => h0 (by rw [hc]; ring))
    have hmnx := cast_div_lt hlt
    obtain ⟨hf0, hf1⟩ := hueFrac_bounds r g b hlt
    refine ⟨⟨by linarith, by linarith⟩, ?_, by positivity, by linarith⟩
    rcases lt_or_le ((((max (max r g) b : ℕ):ℚ)/255 + ((min (min r g) b : ℕ):ℚ)/255)/2)
      (1/2) with hc | hc
    · rw [if_pos hc]
      constructor
      · apply div_nonneg <;> linarith
      · rw [div_le_one (by linarith)]
        linarith
    · rw [if_neg (not_lt.mpr hc)]
      have hden : (0:ℚ) < 2 - ((max (max r g) b : ℕ):ℚ)/255
          - ((min (min r g) b : ℕ):ℚ)/255 := by linarith
      constructor
      · apply div_nonneg <;> linarith
      · rw [div_le_one hden]
        linarith

/-- Witness for C2 at the concrete byte triple `(250, 173, 199)`. -/
theorem from_rgb_range_witness :
    (250 ≤ 255 ∧ 173 ≤ 255 ∧ 199 ≤ 255) ∧
      (0 ≤ (from_rgb 250 173 199).h ∧ (from_rgb 250 173 199).h < 360) ∧
        (0 ≤ (from_rgb 250 173 199).s ∧ (from_rgb 250 173 199).s ≤ 1) ∧
          (0 ≤ (from_rgb 250 173 199).l ∧ (from_rgb 250 173 199).l ≤ 1) :=
  ⟨⟨by norm_num, by norm_num, by norm_num⟩,
    from_rgb_range 250 173 199 (by norm_num) (by norm_num) (by norm_num)⟩

/-- C5: `HSL::from_rgb` takes the achromatic early return (hue 0, saturation
0, lightness `(max+min)/2`) exactly when the three input bytes are all equal;
in particular black maps to `(0,0,0)` and white to `(0,0,1)`. -/
theorem from_rgb_achromatic_iff (r g b : ℕ)
    (hr : r ≤ 255) (hg : g ≤ 255) (hb : b ≤ 255) :
    (from_rgb r g b
        = ⟨0, 0, (((max (max r g) b : ℕ):ℚ)/255 + ((min (min r g) b : ℕ):ℚ)/255)/2⟩
      ↔ r = g ∧ g = b) ∧
      from_rgb 0 0 0 = ⟨0, 0, 0⟩ ∧ from_rgb 255 255 255 = ⟨0, 0, 1⟩ := by
  refine ⟨⟨?_, ?_⟩, ?_, ?_⟩
  · intro hEq
    by_contra hne
    have h0 : ¬ ((max (max r g) b : ℕ):ℚ)/255 - ((min (min r g) b : ℕ):ℚ)/255 = 0 := by
      intro hc
      have heq : min (min r g) b = max (max r g) b :=
        ((norm_eq_iff _ _).mp (by linarith)).symm
      exact hne ⟨by omega, by omega⟩
    have hmx255 : max (max r g) b ≤ 255 := by omega
    have hmn0 : (0:ℚ) ≤ ((min (min r g) b : ℕ):ℚ)/255 := by positivity
    have hmx1 : ((max (max r g) b : ℕ):ℚ)/255 ≤ 1 := by
      have h' : ((max (max r g) b : ℕ):ℚ) ≤ 255 := by exact_mod_cast hmx255
      linarith
    have hlt : min (min r g) b < max (max r g) b :=
      lt_of_le_of_ne (by omega) (fun hc => h0 (by rw [hc]; ring))
    obtain ⟨_, _, hspos⟩ := pq_eval hmn0 (cast_div_lt hlt) hmx1 rfl
    simp only [from_rgb] at hEq
    rw [if_neg h0] at hEq
    have hs := congrArg HSL.s hEq
    dsimp only at hs
    exact absurd hs (ne_of_gt hspos)
  · rintro ⟨h1, h2⟩
    subst h1
    subst h2
    simp only [from_rgb, max_self, min_self]
    rw [if_pos (by ring)]
  · norm_num [from_rgb]
  · norm_num [from_rgb]

/-- Witness for C5 at the concrete byte triple `(7, 7, 7)`. -/
theorem from_rgb_achromatic_iff_witness :
    (7 ≤ 255) ∧
      from_rgb 7 7 7
          = ⟨0, 0, (((max (max 7 7) 7 : ℕ):ℚ)/255 + ((min (min 7 7) 7 : ℕ):ℚ)/255)/2⟩ :=
  ⟨by norm_num,
    ((from_rgb_achromatic_iff 7 7 7 (by norm_num) (by norm_num)
      (by norm_num)).1.mpr ⟨rfl, rfl⟩)⟩

/-- C6: for every lightness and every pair of hue values, `HSL::to_rgb` at
saturation 0 returns the same triple for both hues, and that triple is a gray
with all three channels equal. -/
theorem to_rgb_sat_zero_gray (h1 h2 l : ℚ) :
    to_rgb ⟨h1, 0, l⟩ = to_rgb ⟨h2, 0, l⟩ ∧
      ∃ v, to_rgb ⟨h1, 0, l⟩ = (v, v, v) := by
  constructor
  · simp [to_rgb]
  · exact ⟨percent_to_byte l, by simp [to_rgb]⟩

/-- C9: yellow `(255,255,0)` maps to hue within 0.5° of 60, saturation within
0.05 of 1 and lightness within 0.05 of 0.5, and `to_rgb` on
`(h=60, s=1, l=0.5)` returns each byte within 2 of `(255,255,0)`. -/
theorem yellow_fixed_point :
    (|(from_rgb 255 255 0).h - 60| ≤ 1/2 ∧
      |(from_rgb 255 255 0).s - 1| ≤ 1/20 ∧
        |(from_rgb 255 255 0).l - 1/2| ≤ 1/20) ∧
      (|((to_rgb ⟨60, 1, 1/2⟩).1 : ℤ) - 255| ≤ 2 ∧
        |((to_rgb ⟨60, 1, 1/2⟩).2.1 : ℤ) - 255| ≤ 2 ∧
          |((to_rgb ⟨60, 1, 1/2⟩).2.2 : ℤ) - 0| ≤ 2) := by
  have hfwd : from_rgb 255 255 0 = ⟨60, 1, 1/2⟩ := by
    norm_num [from_rgb, hueFrac, wrap]
  have hbwd : to_rgb ⟨60, 1, 1/2⟩ = (255, 255, 0) := by
    norm_num [to_rgb, hue_to_rgb, hue_to_rgb_core, wrap, percent_to_byte, fround]
    omega
  rw [hfwd, hbwd]
  norm_num

/-- C10: at saturation exactly 0, `HSL::to_rgb` returns three equal bytes for
any real lightness, and the saturating float-to-`u8` conversion sends
lightness at least 1 to `(255,255,255)` and lightness at most 0 to
`(0,0,0)`. -/
theorem to_rgb_sat_zero_saturates (h l : ℚ) :
    (∃ v, to_rgb ⟨h, 0, l⟩ = (v, v, v)) ∧
      (1 ≤ l → to_rgb ⟨h, 0, l⟩ = (255, 255, 255)) ∧
        (l ≤ 0 → to_rgb ⟨h, 0, l⟩ = (0, 0, 0)) := by
  refine ⟨⟨percent_to_byte l, by simp [to_rgb]⟩, ?_, ?_⟩
  · intro hl
    simp [to_rgb, percent_to_byte_of_ge_one hl]
  · intro hl
    simp [to_rgb, percent_to_byte_of_nonpos hl]

/-- Witness for C10 at hue 123 with lightness 2 and lightness -1. -/
theorem to_rgb_sat_zero_saturates_witness :
    ((1:ℚ) ≤ 2 ∧ to_rgb ⟨123, 0, 2⟩ = (255, 255, 255)) ∧
      ((-1:ℚ) ≤ 0 ∧ to_rgb ⟨123, 0, -1⟩ = (0, 0, 0)) :=
  ⟨⟨by norm_num, (to_rgb_sat_zero_saturates 123 2).2.1 (by norm_num)⟩,
    ⟨by norm_num, (to_rgb_sat_zero_saturates 123 (-1)).2.2 (by norm_num)⟩⟩

/-- C3 counterexample: `HSL::from_rgb` indexes `rgb[0]`, which panics on the
empty slice, so it does fail for a representable input. -/
theorem from_rgb_slice_nil_fails : from_rgb_slice [] = none := rfl

/-- C3 (amended): `HSL::from_rgb` produces a result for every slice with at
least three elements, and `HSL::to_rgb` always produces three valid bytes;
only slices shorter than three make `from_rgb` fail. -/
theorem from_rgb_slice_safe (rgb : List ℕ) (c : HSL) (h : 3 ≤ rgb.length) :
    (from_rgb_slice rgb).isSome = true ∧
      ((to_rgb c).1 ≤ 255 ∧ (to_rgb c).2.1 ≤ 255 ∧ (to_rgb c).2.2 ≤ 255) := by
  constructor
  · rcases rgb with _ | ⟨r, _ | ⟨g, _ | ⟨b, rest⟩⟩⟩
    · simp at h
    · simp at h
    · simp at h
    · rfl
  · unfold to_rgb percent_to_byte
    split_ifs <;>
      exact ⟨min_le_right _ _, min_le_right _ _, min_le_right _ _⟩

/-- Witness for C3 (amended) on the slice `[1, 2, 3]` and a sample HSL value. -/
theorem from_rgb_slice_safe_witness :
    3 ≤ ([1, 2, 3] : List ℕ).length ∧
      ((from_rgb_slice [1, 2, 3]).isSome = true ∧
        ((to_rgb ⟨60, 1, 1/2⟩).1 ≤ 255 ∧ (to_rgb ⟨60, 1, 1/2⟩).2.1 ≤ 255 ∧
          (to_rgb ⟨60, 1, 1/2⟩).2.2 ≤ 255)) :=
  ⟨by norm_num, from_rgb_slice_safe [1, 2, 3] ⟨60, 1, 1/2⟩ (by norm_num)⟩

/-- C4 counterexample: at the chromatic input `(255, 1, 0)` the hue returned
by `from_rgb` is `4/17 ≈ 0.235°`, which is not the centi-degree rounding
`0.24` claimed by the spec: the source multiplies by 360 and applies no
rounding at all. -/
theorem from_rgb_hue_not_centirounded :
    ¬ ((255:ℕ) = 1 ∧ (1:ℕ) = 0) ∧
      (from_rgb 255 1 0).h ≠ roundCenti (hueFrac 255 1 0 * 360) := by
  constructor
  · norm_num
  · norm_num [from_rgb, hueFrac, wrap, roundCenti, fround]

/-- C4 (amended): for every chromatic input the hue returned by
`HSL::from_rgb` equals the hue fraction multiplied by 360, with no rounding
applied. -/
theorem from_rgb_hue_unrounded (r g b : ℕ) (hne : ¬ (r = g ∧ g = b)) :
    (from_rgb r g b).h = hueFrac r g b * 360 := by
  have h0 : ¬ ((max (max r g) b : ℕ):ℚ)/255 - ((min (min r g) b : ℕ):ℚ)/255 = 0 := by
    intro hc
    have heq : min (min r g) b = max (max r g) b :=
      ((norm_eq_iff _ _).mp (by linarith)).symm
    exact hne ⟨by omega, by omega⟩
  simp only [from_rgb]
  rw [if_neg h0]

/-- Witness for C4 (amended) at the chromatic input `(255, 1, 0)`. -/
theorem from_rgb_hue_unrounded_witness :
    ¬ ((255:ℕ) = 1 ∧ (1:ℕ) = 0) ∧ (from_rgb 255 1 0).h = hueFrac 255 1 0 * 360 :=
  ⟨by norm_num, from_rgb_hue_unrounded 255 1 0 (by norm_num)⟩

/-- C7: for hue in `[0,360]`, saturation in `(0,1]` and lightness in `[0,1]`,
the chroma bounds satisfy `0 ≤ p ≤ q ≤ 1`, every value `hue_to_rgb` returns
inside `to_rgb` lies in `[0,1]`, and the three bytes are produced without the
`u8` cast in `percent_to_byte` ever needing to clamp. -/
theorem to_rgb_chroma_bounds_no_clamp (h s l p q : ℚ)
    (hh0 : 0 ≤ h) (hh1 : h ≤ 360) (hs0 : 0 < s) (hs1 : s ≤ 1)
    (hl0 : 0 ≤ l) (hl1 : l ≤ 1)
    (hqdef : q = if l < 1/2 then l * (1 + s) else l + s - l * s)
    (hpdef : p = 2 * l - q) :
    (0 ≤ p ∧ p ≤ q ∧ q ≤ 1) ∧
      (∀ t : ℚ, -1 ≤ t → t ≤ 2 →
        0 ≤ hue_to_rgb p q t ∧ hue_to_rgb p q t ≤ 1) ∧
      ((percent_to_byte (hue_to_rgb p q (h/360 + 1/3)) : ℤ)
          = fround (hue_to_rgb p q (h/360 + 1/3) * 255) ∧
        (percent_to_byte (hue_to_rgb p q (h/360)) : ℤ)
          = fround (hue_to_rgb p q (h/360) * 255) ∧
        (percent_to_byte (hue_to_rgb p q (h/360 - 1/3)) : ℤ)
          = fround (hue_to_rgb p q (h/360 - 1/3) * 255)) ∧
      to_rgb ⟨h, s, l⟩ =
        (percent_to_byte (hue_to_rgb p q (h/360 + 1/3)),
          percent_to_byte (hue_to_rgb p q (h/360)),
          percent_to_byte (hue_to_rgb p q (h/360 - 1/3))) := by
  have hpq : 0 ≤ p ∧ p ≤ q ∧ q ≤ 1 := by
    rcases lt_or_le l (1/2) with hc | hc
    · rw [if_pos hc] at hqdef
      subst hpdef
      subst hqdef
      refine ⟨?_, ?_, ?_⟩ <;> nlinarith
    · rw [if_neg (not_lt.mpr hc)] at hqdef
      subst hpdef
      subst hqdef
      refine ⟨?_, ?_, ?_⟩ <;> nlinarith
  obtain ⟨hp0, hpq', hq1⟩ := hpq
  have hmem : ∀ t : ℚ, -1 ≤ t → t ≤ 2 →
      0 ≤ hue_to_rgb p q t ∧ hue_to_rgb p q t ≤ 1 :=
    fun t ht1 ht2 => hue_to_rgb_mem t hp0 hpq' hq1 ht1 ht2
  have hfr0 : (0:ℚ) ≤ h/360 := by positivity
  have hfr1 : h/360 ≤ 1 := by linarith
  obtain ⟨hr0, hr1⟩ := hmem (h/360 + 1/3) (by linarith) (by linarith)
  obtain ⟨hg0, hg1⟩ := hmem (h/360) (by linarith) (by linarith)
  obtain ⟨hb0, hb1⟩ := hmem (h/360 - 1/3) (by linarith) (by linarith)
  refine ⟨⟨hp0, hpq', hq1⟩, hmem,
    ⟨percent_to_byte_eq_fround hr0 hr1, percent_to_byte_eq_fround hg0 hg1,
      percent_to_byte_eq_fround hb0 hb1⟩, ?_⟩
  simp only [to_rgb]
  rw [if_neg (ne_of_gt hs0)]
  rw [← hqdef, ← hpdef]

/-- Witness for C7 at `(h=60, s=1, l=1/2)` with chroma bounds `p=0`, `q=1`. -/
theorem to_rgb_chroma_bounds_no_clamp_witness :
    to_rgb ⟨60, 1, 1/2⟩ =
      (percent_to_byte (hue_to_rgb 0 1 (60/360 + 1/3)),
        percent_to_byte (hue_to_rgb 0 1 (60/360)),
        percent_to_byte (hue_to_rgb 0 1 (60/360 - 1/3))) :=
  (to_rgb_chroma_bounds_no_clamp 60 1 (1/2) 0 1 (by norm_num) (by norm_num)
    (by norm_num) (by norm_num) (by norm_num) (by norm_num) (by norm_num)
    (by norm_num)).2.2.2

/-- C8: `hue_to_rgb` first wraps `t` by a single step and then returns exactly
the four-sector piecewise linear interpolation, as the specification words
it. -/
theorem hue_to_rgb_matches_spec (p q t : ℚ) :
    hue_to_rgb p q t = spec_hue_interp p q t := by
  have hw : (if t < 0 then t + 1 else if t > 1 then t - 1 else t) = wrap t := rfl
  simp only [hue_to_rgb, spec_hue_interp, hw]
  unfold hue_to_rgb_core
  rcases lt_or_le (wrap t) (1/6) with h1 | h1
  · rw [if_pos h1, if_pos h1]
  · rw [if_neg (not_lt.mpr h1), if_neg (not_lt.mpr h1)]
    rcases lt_or_le (wrap t) (1/2) with h2 | h2
    · rw [if_pos h2,
        if_pos (show 1/6 ≤ wrap t ∧ wrap t < 1/2 from ⟨h1, h2⟩)]
    · rw [if_neg (not_lt.mpr h2),
        if_neg (show ¬ (1/6 ≤ wrap t ∧ wrap t < 1/2) from
          fun hc => absurd hc.2 (not_lt.mpr h2))]
      rcases lt_or_le (wrap t) (2/3) with h3 | h3
      · rw [if_pos h3,
          if_pos (show 1/2 ≤ wrap t ∧ wrap t < 2/3 from ⟨h2, h3⟩)]
      · rw [if_neg (not_lt.mpr h3),
          if_neg (show ¬ (1/2 ≤ wrap t ∧ wrap t < 2/3) from
            fun hc => absurd hc.2 (not_lt.mpr h3))]

end HslRs